import Mathlib

set_option linter.unusedSectionVars false

/-!
A shallow embedding of the scalar autograd engine in `src/micrograd.py`.

Python `Value` objects form a heap of mutually referencing nodes; we model
the heap as an arena `List (Node K)` over a field `K` (exact arithmetic in
place of IEEE floats; `K = ℚ` for the rational scenarios, `K = ℝ` for the
hyperbolic-tangent scenario).  A node records its forward `data`, its
producer set `_prev` (as a duplicate-free list of arena indices), the tag
of the operation that created it (Python stores the equivalent information
as the `_backward` closure plus the `_op` string), and its mutable `grad`.
New nodes are appended at the end of the arena, so producer indices are
always strictly smaller than the index of the node they produce.
-/

namespace Micrograd

/-- Operation tag of a node: which operator created it and which arena
indices its stored `_backward` closure captured.  The exponent of `**` is
modelled as an integer (the claims only exercise integer exponents; the
`isinstance(other, (int, float))` assert treats `int` and `float` alike). -/
inductive Op where
  | leaf : Op
  | add (a b : Nat) : Op
  | mul (a b : Nat) : Op
  | pow (a : Nat) (e : ℤ) : Op
  | tanh (a : Nat) : Op
deriving DecidableEq, Repr

/-- One `Value` object: `data`, `_prev` (producer indices), the backward
tag, and the accumulated `grad`. -/
structure Node (K : Type) where
  data : K
  prev : List Nat
  op : Op
  grad : K
deriving DecidableEq, Repr

variable {K : Type} [Field K]

/-- `data` of node `i` (0 for an out-of-range index; never exercised on
well-formed inputs). -/
def dataOf (g : List (Node K)) (i : Nat) : K :=
  match g[i]? with
  | some n => n.data
  | none => 0

/-- `grad` of node `i`. -/
def gradOf (g : List (Node K)) (i : Nat) : K :=
  match g[i]? with
  | some n => n.grad
  | none => 0

/-- `_prev` of node `i`. -/
def prevOf (g : List (Node K)) (i : Nat) : List Nat :=
  match g[i]? with
  | some n => n.prev
  | none => []

/-- Backward tag of node `i`. -/
def opOf (g : List (Node K)) (i : Nat) : Op :=
  match g[i]? with
  | some n => n.op
  | none => .leaf

/-- Apply `f` to the `grad` field of node `i`, leaving the rest of the
arena unchanged (models a Python assignment to `v.grad`). -/
def updGrad (f : K → K) : Nat → List (Node K) → List (Node K)
  | _, [] => []
  | 0, n :: t => { n with grad := f n.grad } :: t
  | i + 1, n :: t => n :: updGrad f i t

/-- `v.grad += x`. -/
def addGrad (g : List (Node K)) (i : Nat) (x : K) : List (Node K) :=
  updGrad (fun t => t + x) i g

/-- `v.grad = x`. -/
def setGrad (g : List (Node K)) (i : Nat) (x : K) : List (Node K) :=
  updGrad (fun _ => x) i g

/-- `set(_children)` for the two-argument operators: Python's `set`
collapses `(self, other)` to a single element when both are the same
object. -/
def childList (a b : Nat) : List Nat := if a = b then [a] else [a, b]

/-- `Value(data)`: wrap a literal; empty producers, no-op backward,
`grad = 0`.  Returns the extended arena and the new node's index. -/
def mkValue (g : List (Node K)) (x : K) : List (Node K) × Nat :=
  (g ++ [⟨x, [], .leaf, 0⟩], g.length)

/-- `Value.__add__` on two existing nodes. -/
def vadd (g : List (Node K)) (a b : Nat) : List (Node K) × Nat :=
  (g ++ [⟨dataOf g a + dataOf g b, childList a b, .add a b, 0⟩], g.length)

/-- `Value.__add__` with a bare numeric right operand: the literal is
first wrapped via `Value(other)`. -/
def vaddNum (g : List (Node K)) (a : Nat) (x : K) : List (Node K) × Nat :=
  let p := mkValue g x
  vadd p.1 a p.2

/-- `Value.__mul__` on two existing nodes. -/
def vmul (g : List (Node K)) (a b : Nat) : List (Node K) × Nat :=
  (g ++ [⟨dataOf g a * dataOf g b, childList a b, .mul a b, 0⟩], g.length)

/-- `Value.__pow__` with integer exponent `e`; producer is `self` alone. -/
def vpow (g : List (Node K)) (a : Nat) (e : ℤ) : List (Node K) × Nat :=
  (g ++ [⟨dataOf g a ^ e, [a], .pow a e, 0⟩], g.length)

/-- `Value.tanh`: the source computes `(exp(x) - 1) / (exp(x) + 1)` where
`x = self.data`.  The exponential of the carrier field is passed in as
`ex` (instantiated with `Real.exp`). -/
def vtanh (ex : K → K) (g : List (Node K)) (a : Nat) : List (Node K) × Nat :=
  (g ++ [⟨(ex (dataOf g a) - 1) / (ex (dataOf g a) + 1), [a], .tanh a, 0⟩],
    g.length)

/-- `Value.__neg__`: the source returns `-1 * self.data`, a bare number,
not a node. -/
def vneg (g : List (Node K)) (a : Nat) : K := -1 * dataOf g a

/-- `Value.__sub__`: `self + (-other)`; since `__neg__` produces a bare
number, the right operand is wrapped as a fresh leaf by `__add__`. -/
def vsub (g : List (Node K)) (a b : Nat) : List (Node K) × Nat :=
  vaddNum g a (vneg g b)

/-- `Value.__truediv__` on two nodes: `self * other ** -1`. -/
def vdiv (g : List (Node K)) (a b : Nat) : List (Node K) × Nat :=
  let p := vpow g b (-1)
  vmul p.1 a p.2

/-- One `v._backward()` invocation for node `i`, dispatching on the tag.
Each branch transcribes the corresponding closure in the source:
`add`: `self.grad += 1; other.grad += 1` (the upstream grad is not read);
`mul`: `self.grad += other.data * out.grad; other.grad += self.data * out.grad`;
`pow`: `self.grad = other * (self.data ** (other - 1))` (assignment, no
upstream factor); `tanh`: `self.grad += 1 - out.data ** 2`.  The updates
are sequenced exactly as in the source. -/
def runBackward (g : List (Node K)) (i : Nat) : List (Node K) :=
  match opOf g i with
  | .leaf => g
  | .add a b => addGrad (addGrad g a 1) b 1
  | .mul a b =>
      let g1 := addGrad g a (dataOf g b * gradOf g i)
      addGrad g1 b (dataOf g1 a * gradOf g1 i)
  | .pow a e => setGrad g a ((e : K) * dataOf g a ^ (e - 1))
  | .tanh a => addGrad g a (1 - dataOf g i ^ 2)

/-- DFS state of `build_topo`: the `visited` identity set and the output
sequence `topo`. -/
structure VT where
  vis : List Nat
  topo : List Nat
deriving DecidableEq, Repr

/-- `build_topo(v)`: if `v` is unvisited, mark it, recurse into its
producers, then append `v`.  The recursion is fuelled; since producer
indices strictly decrease, fuel `i + 1` fully evaluates the Python
recursion from node `i` (proved below). -/
def dfsN (g : List (Node K)) : Nat → Nat → VT → VT
  | 0, _, st => st
  | fuel + 1, i, st =>
      if i ∈ st.vis then st
      else
        let st2 := (prevOf g i).foldl (fun acc c => dfsN g fuel c acc)
          ⟨i :: st.vis, st.topo⟩
        ⟨st2.vis, st2.topo ++ [i]⟩

/-- The topological sequence `build_topo` produces from root `r`. -/
def buildTopo (g : List (Node K)) (r : Nat) : List Nat :=
  (dfsN g (r + 1) r ⟨[], []⟩).topo

/-- `Value.backward()`: build `topo`, seed `self.grad = 1`, then invoke
`v._backward()` for `v` in `reversed(topo)`. -/
def backwardRun (g : List (Node K)) (r : Nat) : List (Node K) :=
  (buildTopo g r).reverse.foldl runBackward (setGrad g r 1)

/-- Arena indices the `_backward` closure of a tag writes to. -/
def opIds : Op → List Nat
  | .leaf => []
  | .add a b => [a, b]
  | .mul a b => [a, b]
  | .pow a _ => [a]
  | .tanh a => [a]

/-- Well-formedness of an arena: producer indices and the indices captured
by backward closures strictly precede the node.  Every arena built through
the operator API satisfies this (nodes only reference already existing
nodes). -/
def WF (g : List (Node K)) : Prop :=
  ∀ i, i < g.length →
    (∀ c ∈ prevOf g i, c < i) ∧ (∀ c ∈ opIds (opOf g i), c < i)

instance (g : List (Node K)) : Decidable (WF g) := by
  unfold WF; infer_instance

/-- `Reach g r v`: node `v` is reachable from `r` through the producer
relation (reflexively and transitively). -/
inductive Reach (g : List (Node K)) : Nat → Nat → Prop
  | refl (i : Nat) : Reach g i i
  | tail {i j c : Nat} : Reach g i j → c ∈ prevOf g j → Reach g i c

/-- `t` lists every node strictly after all of its producers. -/
def TopoOrd (g : List (Node K)) (t : List Nat) : Prop :=
  ∀ k : Nat, ∀ hk : k < t.length, ∀ c ∈ prevOf g (t.get ⟨k, hk⟩),
    ∃ m : Nat, ∃ hm : m < k, t.get ⟨m, Nat.lt_trans hm hk⟩ = c

/-- Invariant of the DFS state: the output sequence is duplicate-free,
contained in the visited set, and producer-closed in order. -/
def InvVT (g : List (Node K)) (st : VT) : Prop :=
  st.topo.Nodup ∧ (∀ n ∈ st.topo, n ∈ st.vis) ∧ TopoOrd g st.topo

/-- The inner loop of `build_topo`: fold `dfsN` over a worklist of
producer indices. -/
def dfsL (g : List (Node K)) (fuel : Nat) (l : List Nat) (st : VT) : VT :=
  l.foldl (fun acc c => dfsN g fuel c acc) st

/-- What one (or a sequence of) `build_topo` call(s) on the worklist `l`
guarantees about the state transition `st ⤳ st2`: the visited set grows,
the output sequence is extended on the right, the invariant is preserved,
freshly visited nodes end up in the output, freshly output nodes were
unvisited, every worklist node ends in the output unless it was already
visited-but-pending, and every new output node is reachable from the
worklist. -/
def DfsConcl (g : List (Node K)) (l : List Nat) (st st2 : VT) : Prop :=
  (∀ v ∈ st.vis, v ∈ st2.vis) ∧
  (∃ d, st2.topo = st.topo ++ d) ∧
  InvVT g st2 ∧
  (∀ v ∈ st2.vis, v ∉ st.vis → v ∈ st2.topo) ∧
  (∀ v ∈ st2.topo, v ∉ st.topo → v ∉ st.vis) ∧
  (∀ c ∈ l, c ∈ st2.topo ∨ (c ∈ st.vis ∧ c ∉ st.topo)) ∧
  (∀ v ∈ st2.topo, v ∈ st.topo ∨ ∃ i ∈ l, Reach g i v)

/-- `Value.__mul__` with a bare numeric right operand (wrapped first). -/
def vmulNum (g : List (Node K)) (a : Nat) (x : K) : List (Node K) × Nat :=
  let p := mkValue g x
  vmul p.1 a p.2

/-- A Python operand: a bare number or a `Value` (by arena index). -/
inductive PyV (K : Type) where
  | num (x : K)
  | node (i : Nat)
deriving DecidableEq, Repr

/-- Python `a + b` including operator dispatch, with fuel counting
dispatch steps.  `num + num` is plain arithmetic; a left `Value` goes
through `Value.__add__` (wrapping a numeric right operand); `num + node`
falls back to `Value.__radd__`, whose body `other + self` re-evaluates
the same application — the model re-enters with the same operands and one
dispatch step less. -/
def pyAdd (g : List (Node K)) : Nat → PyV K → PyV K → Option (List (Node K) × PyV K)
  | 0, _, _ => none
  | _ + 1, .num x, .num y => some (g, .num (x + y))
  | _ + 1, .node i, .num y => some ((vaddNum g i y).1, .node (vaddNum g i y).2)
  | _ + 1, .node i, .node j => some ((vadd g i j).1, .node (vadd g i j).2)
  | fuel + 1, .num x, .node i => pyAdd g fuel (.num x) (.node i)

/-- Python `a * b` with dispatch; `num * node` falls back to
`Value.__rmul__`, whose body `other * self` re-evaluates the same
application. -/
def pyMul (g : List (Node K)) : Nat → PyV K → PyV K → Option (List (Node K) × PyV K)
  | 0, _, _ => none
  | _ + 1, .num x, .num y => some (g, .num (x * y))
  | _ + 1, .node i, .num y => some ((vmulNum g i y).1, .node (vmulNum g i y).2)
  | _ + 1, .node i, .node j => some ((vmul g i j).1, .node (vmul g i j).2)
  | fuel + 1, .num x, .node i => pyMul g fuel (.num x) (.node i)

/-- Python `a - b` with dispatch.  A left `Value` uses `__sub__`
(`self + (-other)`, where `-other` is a bare number in every case because
`__neg__` returns one); `num - node` falls back to `Value.__rsub__`,
whose body `other + (-self)` adds the two bare numbers `x` and
`-1 * self.data`. -/
def pySub (g : List (Node K)) : Nat → PyV K → PyV K → Option (List (Node K) × PyV K)
  | 0, _, _ => none
  | _ + 1, .num x, .num y => some (g, .num (x - y))
  | _ + 1, .node i, .num y => some ((vaddNum g i (-y)).1, .node (vaddNum g i (-y)).2)
  | _ + 1, .node i, .node j => some ((vsub g i j).1, .node (vsub g i j).2)
  | fuel + 1, .num x, .node i => pyAdd g fuel (.num x) (.num (vneg g i))

/-- Python `a / b` with dispatch.  A left `Value` uses `__truediv__`
(`self * other ** -1`); `num / node` falls back to `Value.__rtruediv__`,
whose body `other * self ** -1` first builds the power node and then
evaluates `num * node` — which re-dispatches through `__rmul__`. -/
def pyDiv (g : List (Node K)) : Nat → PyV K → PyV K → Option (List (Node K) × PyV K)
  | 0, _, _ => none
  | _ + 1, .num x, .num y => some (g, .num (x / y))
  | fuel + 1, .node i, .num y => pyMul g fuel (.node i) (.num (y ^ (-1 : ℤ)))
  | fuel + 1, .node i, .node j =>
      pyMul (vpow g j (-1)).1 fuel (.node i) (.node (vpow g j (-1)).2)
  | fuel + 1, .num x, .node i =>
      pyMul (vpow g i (-1)).1 fuel (.num x) (.node (vpow g i (-1)).2)

/-- The exponent argument of `__pow__` as Python receives it: a numeric
literal (`int`/`float`, modelled as an integer — the guard treats the two
alike and every exponent in the specification is an integer) or another
`Value`. -/
inductive PowArg where
  | numLit (n : ℤ)
  | nodeArg (j : Nat)
deriving DecidableEq, Repr

/-- `Value.__pow__` including its leading
`assert isinstance(other, (int, float))`: a `Value` exponent fails the
assert before any node is constructed; a numeric literal passes and
builds the power node. -/
def powChecked (g : List (Node K)) (i : Nat) : PowArg → Option (List (Node K) × Nat)
  | .numLit n => some (vpow g i n)
  | .nodeArg _ => none

/-! ### Concrete scenario graphs -/

/-- Leaves `a = Value(1)`, `b = Value(1)`, `c = Value(3)`; `s = a + b`
(index 3), `f = s * c` (index 4).  After `f.backward()`, the add node `s`
holds upstream grad 3 when its `_backward` runs. -/
def addUpGraph : List (Node ℚ) :=
  (vmul (vadd (mkValue (mkValue (mkValue [] 1).1 1).1 3).1 0 1).1 3 2).1

/-- Leaves `a = Value(1)` and `c = Value(3)`; `s = a ** 2` (index 2),
`f = s * c` (index 3).  After `f.backward()`, the power node `s` holds
upstream grad 3 when its `_backward` runs. -/
def powUpGraph : List (Node ℚ) :=
  (vmul (vpow (mkValue (mkValue [] 1).1 3).1 0 2).1 2 1).1

/-- `a = Value(2)`, `b = Value(1)`, `q = a / b` — built as
`a * b ** -1`: the power node is index 2, the quotient index 3. -/
def divGraph : List (Node ℚ) :=
  (vdiv (mkValue (mkValue [] 2).1 1).1 0 1).1

/-- `a = Value(5)`, `b = Value(3)`, `d = a - b`: `__neg__` turns `b` into
the bare number `-3`, which `__add__` wraps as the fresh leaf at index 2;
the difference node is index 3 and `b` is not among its producers. -/
def subGraph : List (Node ℚ) :=
  (vsub (mkValue (mkValue [] 5).1 3).1 0 1).1

/-- `a = Value(2)`, `b = Value(-3)`, `p = a * b` (index 2),
`s = p + a` (index 3), `f = s.tanh()` (index 4), over `ℝ` with
`Real.exp` as the exponential. -/
noncomputable def tanhGraph : List (Node ℝ) :=
  (vtanh Real.exp (vadd (vmul (mkValue (mkValue [] 2).1 (-3)).1 0 1).1 2 0).1 3).1

/-- `a = Value(5)`; `c = a + a` (index 1). -/
def sharedAddGraph (x : ℚ) : List (Node ℚ) :=
  (vadd (mkValue ([] : List (Node ℚ)) x).1 0 0).1

/-! ### Basic lemmas about the arena primitives -/

theorem updGrad_length (f : K → K) (i : Nat) (g : List (Node K)) :
    (updGrad f i g).length = g.length := by
  induction g generalizing i with
  | nil => cases i <;> rfl
  | cons n t ih =>
    cases i with
    | zero => rfl
    | succ j => simpa [updGrad] using ih j

theorem getq_updGrad_ne (f : K → K) {i j : Nat} (h : j ≠ i) (g : List (Node K)) :
    (updGrad f i g)[j]? = g[j]? := by
  induction g generalizing i j with
  | nil => cases i <;> rfl
  | cons n t ih =>
    cases i with
    | zero =>
      cases j with
      | zero => exact absurd rfl h
      | succ j2 => simp [updGrad]
    | succ i2 =>
      cases j with
      | zero => simp [updGrad]
      | succ j2 => simpa [updGrad] using ih (by omega)

theorem gradOf_updGrad_ne (f : K → K) {i j : Nat} (h : j ≠ i) (g : List (Node K)) :
    gradOf (updGrad f i g) j = gradOf g j := by
  unfold gradOf
  rw [getq_updGrad_ne f h]

theorem gradOf_updGrad_self (f : K → K) {i : Nat} (g : List (Node K))
    (h : i < g.length) : gradOf (updGrad f i g) i = f (gradOf g i) := by
  induction g generalizing i with
  | nil => simp at h
  | cons n t ih =>
    cases i with
    | zero => simp [updGrad, gradOf]
    | succ i2 => simpa [updGrad, gradOf] using ih (by simpa using h)

theorem dataOf_updGrad (f : K → K) (i j : Nat) (g : List (Node K)) :
    dataOf (updGrad f i g) j = dataOf g j := by
  induction g generalizing i j with
  | nil => cases i <;> rfl
  | cons n t ih =>
    cases i with
    | zero =>
      cases j with
      | zero => simp [updGrad, dataOf]
      | succ j2 => simp [updGrad, dataOf]
    | succ i2 =>
      cases j with
      | zero => simp [updGrad, dataOf]
      | succ j2 => simpa [updGrad, dataOf] using ih i2 j2

theorem prevOf_updGrad (f : K → K) (i j : Nat) (g : List (Node K)) :
    prevOf (updGrad f i g) j = prevOf g j := by
  induction g generalizing i j with
  | nil => cases i <;> rfl
  | cons n t ih =>
    cases i with
    | zero =>
      cases j with
      | zero => simp [updGrad, prevOf]
      | succ j2 => simp [updGrad, prevOf]
    | succ i2 =>
      cases j with
      | zero => simp [updGrad, prevOf]
      | succ j2 => simpa [updGrad, prevOf] using ih i2 j2

theorem opOf_updGrad (f : K → K) (i j : Nat) (g : List (Node K)) :
    opOf (updGrad f i g) j = opOf g j := by
  induction g generalizing i j with
  | nil => cases i <;> rfl
  | cons n t ih =>
    cases i with
    | zero =>
      cases j with
      | zero => simp [updGrad, opOf]
      | succ j2 => simp [updGrad, opOf]
    | succ i2 =>
      cases j with
      | zero => simp [updGrad, opOf]
      | succ j2 => simpa [updGrad, opOf] using ih i2 j2

theorem opOf_runBackward (g : List (Node K)) (i j : Nat) :
    opOf (runBackward g i) j = opOf g j := by
  unfold runBackward
  cases opOf g i <;> simp [addGrad, setGrad, opOf_updGrad]

theorem dataOf_runBackward (g : List (Node K)) (i j : Nat) :
    dataOf (runBackward g i) j = dataOf g j := by
  unfold runBackward
  cases opOf g i <;> simp [addGrad, setGrad, dataOf_updGrad]

theorem prevOf_runBackward (g : List (Node K)) (i j : Nat) :
    prevOf (runBackward g i) j = prevOf g j := by
  unfold runBackward
  cases opOf g i <;> simp [addGrad, setGrad, prevOf_updGrad]

/-- `v._backward()` can only write to the gradients of the nodes its
closure captured. -/
theorem gradOf_runBackward_skip (g : List (Node K)) (i : Nat) {j : Nat}
    (h : j ∉ opIds (opOf g i)) : gradOf (runBackward g i) j = gradOf g j := by
  unfold runBackward
  cases hop : opOf g i with
  | leaf => rfl
  | add a b =>
      rw [hop] at h
      simp only [opIds, List.mem_cons, List.not_mem_nil] at h
      push_neg at h
      simp [addGrad, gradOf_updGrad_ne _ h.1, gradOf_updGrad_ne _ h.2.1]
  | mul a b =>
      rw [hop] at h
      simp only [opIds, List.mem_cons, List.not_mem_nil] at h
      push_neg at h
      simp [addGrad, gradOf_updGrad_ne _ h.1, gradOf_updGrad_ne _ h.2.1]
  | pow a e =>
      rw [hop] at h
      simp only [opIds, List.mem_cons, List.not_mem_nil] at h
      push_neg at h
      simp [setGrad, gradOf_updGrad_ne _ h.1]
  | tanh a =>
      rw [hop] at h
      simp only [opIds, List.mem_cons, List.not_mem_nil] at h
      push_neg at h
      simp [addGrad, gradOf_updGrad_ne _ h.1]

theorem prevOf_ge (g : List (Node K)) {i : Nat} (h : g.length ≤ i) :
    prevOf g i = [] := by
  unfold prevOf
  rw [List.getElem?_eq_none h]

theorem opOf_ge (g : List (Node K)) {i : Nat} (h : g.length ≤ i) :
    opOf g i = .leaf := by
  unfold opOf
  rw [List.getElem?_eq_none h]

theorem WF.prev_lt {g : List (Node K)} (hWF : WF g) {i c : Nat}
    (hc : c ∈ prevOf g i) : c < i := by
  by_cases h : i < g.length
  · exact (hWF i h).1 c hc
  · rw [prevOf_ge g (le_of_not_lt h)] at hc
    cases hc

theorem WF.op_lt {g : List (Node K)} (hWF : WF g) {i c : Nat}
    (hc : c ∈ opIds (opOf g i)) : c < i := by
  by_cases h : i < g.length
  · exact (hWF i h).2 c hc
  · rw [opOf_ge g (le_of_not_lt h)] at hc
    cases hc

/-! ### Lemmas about reachability -/

theorem Reach.push {g : List (Node K)} {c v i : Nat} (hc : c ∈ prevOf g i)
    (h : Reach g c v) : Reach g i v := by
  induction h with
  | refl => exact Reach.tail (Reach.refl i) hc
  | tail hr hm ih => exact Reach.tail ih hm

theorem Reach.le {g : List (Node K)} (hWF : WF g) {r v : Nat}
    (h : Reach g r v) : v ≤ r := by
  induction h with
  | refl => exact Nat.le_refl _
  | tail hr hm ih =>
      have := hWF.prev_lt hm
      omega

/-! ### Lemmas about the topological ordering predicate -/

theorem topoOrd_nil (g : List (Node K)) : TopoOrd g [] := by
  intro k hk
  simp at hk

theorem get_append_lt (t s : List Nat) (m : Nat) (hm : m < t.length)
    (h2 : m < (t ++ s).length) : (t ++ s).get ⟨m, h2⟩ = t.get ⟨m, hm⟩ := by
  simp [List.get_eq_getElem, List.getElem_append_left hm]

theorem TopoOrd.snoc {g : List (Node K)} {t : List Nat} {n : Nat}
    (h : TopoOrd g t) (hc : ∀ c ∈ prevOf g n, c ∈ t) :
    TopoOrd g (t ++ [n]) := by
  intro k hk c hcm
  by_cases hkl : k < t.length
  · rw [get_append_lt t [n] k hkl hk] at hcm
    obtain ⟨m, hm, hmg⟩ := h k hkl c hcm
    exact ⟨m, hm, by rw [get_append_lt t [n] m (Nat.lt_trans hm hkl) _, hmg]⟩
  · have hkeq : k = t.length := by
      have := hk
      simp at this
      omega
    subst hkeq
    have hget : (t ++ [n]).get ⟨t.length, hk⟩ = n := by
      simp [List.get_eq_getElem]
    rw [hget] at hcm
    obtain ⟨⟨m, hm⟩, hmg⟩ := List.mem_iff_get.mp (hc c hcm)
    exact ⟨m, hm, by rw [get_append_lt t [n] m hm _, hmg]⟩

theorem TopoOrd.closed {g : List (Node K)} {t : List Nat} (h : TopoOrd g t)
    {n c : Nat} (hn : n ∈ t) (hc : c ∈ prevOf g n) : c ∈ t := by
  obtain ⟨⟨k, hk⟩, hkg⟩ := List.mem_iff_get.mp hn
  rw [← hkg] at hc
  obtain ⟨m, hm, hmg⟩ := h k hk c hc
  rw [← hmg]
  exact List.get_mem t m _

theorem nodup_snoc {t : List Nat} {n : Nat} (h : t.Nodup) (hn : n ∉ t) :
    (t ++ [n]).Nodup := by
  rw [List.nodup_append]
  refine ⟨h, List.nodup_singleton n, ?_⟩
  intro a ha hb
  rw [List.mem_singleton] at hb
  exact hn (hb ▸ ha)

/-! ### Correctness of the depth-first traversal -/

theorem dfsConcl_nil {g : List (Node K)} {st : VT} (hInv : InvVT g st) :
    DfsConcl g [] st st := by
  refine ⟨fun v hv => hv, ⟨[], by simp⟩, hInv, ?_, ?_, ?_, ?_⟩
  · intro v hv h2
    exact absurd hv h2
  · intro v hv h2
    exact absurd hv h2
  · intro c hc
    cases hc
  · intro v hv
    exact Or.inl hv

theorem dfsConcl_visited {g : List (Node K)} {st : VT} {i : Nat}
    (hInv : InvVT g st) (hi : i ∈ st.vis) : DfsConcl g [i] st st := by
  refine ⟨fun v hv => hv, ⟨[], by simp⟩, hInv, ?_, ?_, ?_, ?_⟩
  · intro v hv h2
    exact absurd hv h2
  · intro v hv h2
    exact absurd hv h2
  · intro c hc
    rw [List.mem_singleton] at hc
    subst hc
    by_cases ht : c ∈ st.topo
    · exact Or.inl ht
    · exact Or.inr ⟨hi, ht⟩
  · intro v hv
    exact Or.inl hv

theorem DfsConcl.comp {g : List (Node K)} {l1 l2 : List Nat} {st stA stB : VT}
    (h1 : DfsConcl g l1 st stA) (h2 : DfsConcl g l2 stA stB) :
    DfsConcl g (l1 ++ l2) st stB := by
  obtain ⟨v1, ⟨d1, p1⟩, i1, nb1, of1, dn1, rc1⟩ := h1
  obtain ⟨v2, ⟨d2, p2⟩, i2, nb2, of2, dn2, rc2⟩ := h2
  have sub1 : ∀ v ∈ st.topo, v ∈ stA.topo := by
    intro v hv
    rw [p1]
    exact List.mem_append_left _ hv
  have sub2 : ∀ v ∈ stA.topo, v ∈ stB.topo := by
    intro v hv
    rw [p2]
    exact List.mem_append_left _ hv
  refine ⟨fun v hv => v2 v (v1 v hv),
    ⟨d1 ++ d2, by rw [p2, p1, List.append_assoc]⟩, i2, ?_, ?_, ?_, ?_⟩
  · intro v hv hnv
    by_cases hA : v ∈ stA.vis
    · exact sub2 v (nb1 v hA hnv)
    · exact nb2 v hv hA
  · intro v hv hnt
    by_cases hA : v ∈ stA.topo
    · exact of1 v hA hnt
    · intro hc
      exact of2 v hv hA (v1 v hc)
  · intro c hc
    rcases List.mem_append.mp hc with h | h
    · rcases dn1 c h with h3 | h3
      · exact Or.inl (sub2 c h3)
      · exact Or.inr h3
    · rcases dn2 c h with h3 | ⟨hva, hnta⟩
      · exact Or.inl h3
      · right
        constructor
        · by_contra hns
          exact hnta (nb1 c hva hns)
        · intro hct
          exact hnta (sub1 c hct)
  · intro v hv
    rcases rc2 v hv with h | ⟨i, hi, hr⟩
    · rcases rc1 v h with h3 | ⟨i, hi, hr⟩
      · exact Or.inl h3
      · exact Or.inr ⟨i, List.mem_append_left _ hi, hr⟩
    · exact Or.inr ⟨i, List.mem_append_right _ hi, hr⟩

/-- Main correctness of `build_topo`: with fuel exceeding the start node
(enough because producer indices strictly decrease), a call from any
state satisfying the invariant and the pending-ancestor bound realises
the `DfsConcl` transition contract. -/
theorem dfsN_spec {g : List (Node K)} (hWF : WF g) :
    ∀ fuel i st, i < fuel → InvVT g st →
      (∀ v ∈ st.vis, v ∉ st.topo → i < v) →
      DfsConcl g [i] st (dfsN g fuel i st) := by
  intro fuel
  induction fuel with
  | zero =>
    intro i st hi
    omega
  | succ f ih =>
    have hList : ∀ l st, (∀ c ∈ l, c < f) → InvVT g st →
        (∀ v ∈ st.vis, v ∉ st.topo → ∀ c ∈ l, c < v) →
        DfsConcl g l st (dfsL g f l st) := by
      intro l
      induction l with
      | nil =>
        intro st _ hInv _
        simpa only [dfsL, List.foldl_nil] using dfsConcl_nil hInv
      | cons c cs ihl =>
        intro st hlt hInv hgray
        have h1 : DfsConcl g [c] st (dfsN g f c st) :=
          ih c st (hlt c (by simp)) hInv
            (fun v hv hnv => hgray v hv hnv c (by simp))
        have hInvA : InvVT g (dfsN g f c st) := h1.2.2.1
        have hgrayA : ∀ v ∈ (dfsN g f c st).vis, v ∉ (dfsN g f c st).topo →
            ∀ e ∈ cs, e < v := by
          intro v hv hnv e he
          have hvs : v ∈ st.vis := by
            by_contra hns
            exact hnv (h1.2.2.2.1 v hv hns)
          have hnt : v ∉ st.topo := by
            intro hcon
            obtain ⟨d, hd⟩ := h1.2.1
            exact hnv (by rw [hd]; exact List.mem_append_left _ hcon)
          exact hgray v hvs hnt e (by simp [he])
        have h2 := ihl (dfsN g f c st) (fun e he => hlt e (by simp [he]))
          hInvA hgrayA
        simpa only [dfsL, List.foldl_cons, List.singleton_append]
          using h1.comp h2
    intro i st hi hInv hgray
    by_cases hvis : i ∈ st.vis
    · rw [show dfsN g (f + 1) i st = st from by simp [dfsN, hvis]]
      exact dfsConcl_visited hInv hvis
    · have hstep : dfsN g (f + 1) i st =
          ⟨(dfsL g f (prevOf g i) ⟨i :: st.vis, st.topo⟩).vis,
           (dfsL g f (prevOf g i) ⟨i :: st.vis, st.topo⟩).topo ++ [i]⟩ := by
        simp [dfsN, hvis, dfsL]
      have hInv1 : InvVT g (⟨i :: st.vis, st.topo⟩ : VT) :=
        ⟨hInv.1, fun n hn => List.mem_cons_of_mem _ (hInv.2.1 n hn), hInv.2.2⟩
      have hgray1 : ∀ v ∈ (⟨i :: st.vis, st.topo⟩ : VT).vis,
          v ∉ (⟨i :: st.vis, st.topo⟩ : VT).topo →
          ∀ c ∈ prevOf g i, c < v := by
        intro v hv hnv c hc
        rcases List.mem_cons.mp hv with h | h
        · subst h
          exact hWF.prev_lt hc
        · have := hgray v h hnv
          have := hWF.prev_lt hc
          omega
      have hlt1 : ∀ c ∈ prevOf g i, c < f := by
        intro c hc
        have := hWF.prev_lt hc
        omega
      obtain ⟨Bvis, ⟨d, Bd⟩, ⟨Bn, Bsub, Bord⟩, Bnb, Bof, Bdn, Brc⟩ :=
        hList (prevOf g i) ⟨i :: st.vis, st.topo⟩ hlt1 hInv1 hgray1
      set st2 := dfsL g f (prevOf g i) ⟨i :: st.vis, st.topo⟩ with hst2
      have hi_nt2 : i ∉ st2.topo := by
        intro hct
        by_cases hto : i ∈ st.topo
        · exact hvis (hInv.2.1 i hto)
        · exact Bof i hct hto (List.mem_cons_self i st.vis)
      have hkids : ∀ c ∈ prevOf g i, c ∈ st2.topo := by
        intro c hc
        rcases Bdn c hc with h | ⟨hcv, hcnt⟩
        · exact h
        · rcases List.mem_cons.mp hcv with h | h
          · have := hWF.prev_lt hc
            omega
          · have h4 := hgray c h hcnt
            have := hWF.prev_lt hc
            omega
      rw [hstep]
      refine ⟨?_, ⟨d ++ [i], by simp only [hst2] at Bd; rw [Bd]; simp⟩,
        ⟨?_, ?_, ?_⟩, ?_, ?_, ?_, ?_⟩
      · intro v hv
        exact Bvis v (List.mem_cons_of_mem _ hv)
      · exact nodup_snoc Bn hi_nt2
      · intro n hn
        rcases List.mem_append.mp hn with h | h
        · exact Bsub n h
        · rw [List.mem_singleton] at h
          subst h
          exact Bvis n (List.mem_cons_self n st.vis)
      · exact Bord.snoc hkids
      · intro v hv hns
        by_cases hvi : v = i
        · subst hvi
          exact List.mem_append_right _ (List.mem_singleton.mpr rfl)
        · have hv1 : v ∉ (⟨i :: st.vis, st.topo⟩ : VT).vis := by
            intro hcon
            rcases List.mem_cons.mp hcon with h | h
            · exact hvi h
            · exact hns h
          exact List.mem_append_left _ (Bnb v hv hv1)
      · intro v hv hnt
        rcases List.mem_append.mp hv with h | h
        · intro hsv
          exact Bof v h hnt (List.mem_cons_of_mem _ hsv)
        · rw [List.mem_singleton] at h
          subst h
          exact hvis
      · intro c hc
        rw [List.mem_singleton] at hc
        subst hc
        exact Or.inl (List.mem_append_right _ (List.mem_singleton.mpr rfl))
      · intro v hv
        rcases List.mem_append.mp hv with h | h
        · rcases Brc v h with h3 | ⟨c, hc, hr⟩
          · exact Or.inl h3
          · exact Or.inr ⟨i, List.mem_singleton.mpr rfl, Reach.push hc hr⟩
        · rw [List.mem_singleton] at h
          subst h
          exact Or.inr ⟨v, List.mem_singleton.mpr rfl, Reach.refl v⟩

theorem buildTopo_bundle {g : List (Node K)} (hWF : WF g) (r : Nat) :
    DfsConcl g [r] ⟨[], []⟩ (dfsN g (r + 1) r ⟨[], []⟩) :=
  dfsN_spec hWF (r + 1) r ⟨[], []⟩ (Nat.lt_succ_self r)
    ⟨List.nodup_nil, ⟨fun n hn => absurd hn (List.not_mem_nil n), topoOrd_nil g⟩⟩
    (by intro v hv; cases hv)

theorem buildTopo_nodup {g : List (Node K)} (hWF : WF g) (r : Nat) :
    (buildTopo g r).Nodup :=
  (buildTopo_bundle hWF r).2.2.1.1

theorem buildTopo_ord {g : List (Node K)} (hWF : WF g) (r : Nat) :
    TopoOrd g (buildTopo g r) :=
  (buildTopo_bundle hWF r).2.2.1.2.2

theorem mem_buildTopo {g : List (Node K)} (hWF : WF g) (r v : Nat) :
    v ∈ buildTopo g r ↔ Reach g r v := by
  constructor
  · intro hv
    rcases (buildTopo_bundle hWF r).2.2.2.2.2.2 v hv with h | ⟨i, hi, hr⟩
    · cases h
    · rw [List.mem_singleton] at hi
      exact hi ▸ hr
  · intro h
    have hr : r ∈ buildTopo g r := by
      rcases (buildTopo_bundle hWF r).2.2.2.2.2.1 r (List.mem_singleton.mpr rfl)
        with h2 | ⟨h2, _⟩
      · exact h2
      · cases h2
    induction h with
    | refl => exact hr
    | tail h2 hm ih => exact (buildTopo_ord hWF r).closed ih hm

/-- Gradients of nodes strictly above every index in the worklist are
untouched by replaying the backward closures of the worklist. -/
theorem gradOf_foldl_run {g : List (Node K)} (hWF : WF g) (r : Nat) :
    ∀ (l : List Nat) (G : List (Node K)), (∀ j, opOf G j = opOf g j) →
      (∀ v ∈ l, v ≤ r) →
      gradOf (l.foldl runBackward G) r = gradOf G r ∧
      (∀ j, opOf (l.foldl runBackward G) j = opOf g j) := by
  intro l
  induction l with
  | nil =>
    intro G hop _
    exact ⟨rfl, hop⟩
  | cons v vs ih =>
    intro G hop hle
    have hop2 : ∀ j, opOf (runBackward G v) j = opOf g j := by
      intro j
      rw [opOf_runBackward, hop]
    have hg : gradOf (runBackward G v) r = gradOf G r := by
      apply gradOf_runBackward_skip
      rw [hop]
      intro hc
      have h1 := hWF.op_lt hc
      have h2 := hle v (by simp)
      omega
    have h3 := ih (runBackward G v) hop2 (fun w hw => hle w (by simp [hw]))
    rw [List.foldl_cons]
    exact ⟨h3.1.trans hg, h3.2⟩

/-! ### The claims -/

/-- C7: for every root node, the depth-first traversal of `build_topo`
produces a sequence containing each node reachable through the producer
relation exactly once (duplicate-free, membership coincides with
reachability), in which every node appears strictly after all of its
producers. -/
theorem claim7_build_topo_correct (g : List (Node K)) (hWF : WF g) (r : Nat) :
    (buildTopo g r).Nodup ∧
    (∀ v, v ∈ buildTopo g r ↔ Reach g r v) ∧
    TopoOrd g (buildTopo g r) :=
  ⟨buildTopo_nodup hWF r, fun v => mem_buildTopo hWF r v, buildTopo_ord hWF r⟩

/-- Witness for C7 on the concrete graph of `c = a + a` rooted at `c`. -/
theorem claim7_witness :
    WF (sharedAddGraph 5) ∧
    ((buildTopo (sharedAddGraph 5) 1).Nodup ∧
     (∀ v, v ∈ buildTopo (sharedAddGraph 5) 1 ↔ Reach (sharedAddGraph 5) 1 v) ∧
     TopoOrd (sharedAddGraph 5) (buildTopo (sharedAddGraph 5) 1)) :=
  ⟨by decide, claim7_build_topo_correct (sharedAddGraph 5) (by decide) 1⟩

/-- C10: `backward` seeds the root's grad to exactly 1 by assignment and
no propagate action of the traversal ever writes into the root's grad, so
after any `backward` call the root's grad is 1 regardless of the grads
stored in the arena beforehand. -/
theorem claim10_root_grad_one (g : List (Node K)) (hWF : WF g) (r : Nat)
    (hr : r < g.length) : gradOf (backwardRun g r) r = 1 := by
  unfold backwardRun
  have hle : ∀ v ∈ (buildTopo g r).reverse, v ≤ r := by
    intro v hv
    rw [List.mem_reverse] at hv
    exact Reach.le hWF ((mem_buildTopo hWF r v).mp hv)
  have hop : ∀ j, opOf (setGrad g r 1) j = opOf g j := by
    intro j
    unfold setGrad
    exact opOf_updGrad _ _ _ _
  rw [(gradOf_foldl_run hWF r (buildTopo g r).reverse (setGrad g r 1) hop hle).1]
  unfold setGrad
  exact gradOf_updGrad_self (fun _ => (1 : K)) g hr

/-- Witness for C10 on the concrete graph of `f = (a + b) * c`, whose
root is node 4. -/
theorem claim10_witness :
    WF addUpGraph ∧ 4 < addUpGraph.length ∧
    gradOf (backwardRun addUpGraph 4) 4 = 1 :=
  ⟨by decide, by decide,
    claim10_root_grad_one addUpGraph (by decide) 4 (by decide)⟩

/-- C9: for a fresh node `a` used as both operands of `c = a + a`,
`backward` from `c` accumulates both consumer-path contributions:
`a.grad == 2`, not 1. -/
theorem claim9_shared_add_accumulates (x : ℚ) :
    gradOf (backwardRun (sharedAddGraph x) 1) 0 = 2 := by
  norm_num [sharedAddGraph, backwardRun, buildTopo, dfsN, vadd, mkValue,
    prevOf, childList, setGrad, runBackward, opOf, dataOf, gradOf, addGrad,
    updGrad]

/-- C1 (failing input): in `f = (a + b) * c` with `a.data = b.data = 1`,
`c.data = 3`, the add node `s` (index 3) has accumulated grad `g = 3`
when its propagate runs, yet `a.grad` and `b.grad` each increase by 1,
not by `g`: the add backward closure never reads `out.grad`. -/
theorem claim1_add_backward_unweighted :
    gradOf (backwardRun addUpGraph 4) 3 = 3 ∧
    gradOf (backwardRun addUpGraph 4) 0 = 1 ∧
    gradOf (backwardRun addUpGraph 4) 1 = 1 := by
  refine ⟨?_, ?_, ?_⟩ <;>
    norm_num [addUpGraph, backwardRun, buildTopo, dfsN, vadd, vmul, mkValue,
      prevOf, childList, setGrad, runBackward, opOf, dataOf, gradOf, addGrad,
      updGrad]

/-- C2 (failing input): in `f = (a ** 2) * c` with `a.data = 1`,
`c.data = 3`, the power node (index 2) has accumulated grad `g = 3` when
its propagate runs, yet `a.grad` is assigned
`p * a.data ** (p - 1) = 2`, not `2 * g = 6`: the power backward closure
never reads `out.grad` (the assignment-overwrite itself matches the
claim). -/
theorem claim2_pow_backward_unweighted :
    gradOf (backwardRun powUpGraph 3) 2 = 3 ∧
    gradOf (backwardRun powUpGraph 3) 0 = 2 := by
  constructor <;>
    norm_num [powUpGraph, backwardRun, buildTopo, dfsN, vadd, vmul, vpow,
      mkValue, prevOf, childList, setGrad, runBackward, opOf, dataOf, gradOf,
      addGrad, updGrad]

/-- C4 (failing input): for `q = a / b` with `a.data = 2`, `b.data = 1`,
built as `a * b ** -1`, the forward value is `a.data / b.data = 2` and
`a.grad = 1 / b.data = 1` as claimed, but `b.grad` ends at
`-1 * b.data ** -2 = -1`, not the quotient-rule value
`-a.data / b.data ** 2 = -2`: the power backward ignores the upstream
grad accumulated on the reciprocal node. -/
theorem claim4_division_grad_wrong :
    dataOf (backwardRun divGraph 3) 3 = 2 ∧
    gradOf (backwardRun divGraph 3) 0 = 1 ∧
    gradOf (backwardRun divGraph 3) 1 = -1 := by
  refine ⟨?_, ?_, ?_⟩ <;>
    norm_num [divGraph, backwardRun, buildTopo, dfsN, vadd, vmul, vpow, vdiv,
      mkValue, prevOf, childList, setGrad, runBackward, opOf, dataOf, gradOf,
      addGrad, updGrad]

/-- C6 (failing input): for `d = a - b` with `a.data = 5`, `b.data = 3`,
the difference node (index 3) has the right forward value 2, but its
producers are `a` and a fresh leaf holding `-3` (index 2) — `b` (index 1)
is not reachable from `d` through the producer relation, and `backward`
from `d` leaves `b.grad = 0`, not `-1`. -/
theorem claim6_sub_loses_right_operand :
    prevOf subGraph 3 = [0, 2] ∧
    dataOf (backwardRun subGraph 3) 3 = 2 ∧
    ¬ Reach subGraph 3 1 ∧
    gradOf (backwardRun subGraph 3) 1 = 0 := by
  refine ⟨by decide, ?_, ?_, ?_⟩
  · norm_num [subGraph, backwardRun, buildTopo, dfsN, vadd, vsub, vaddNum,
      vneg, mkValue, prevOf, childList, setGrad, runBackward, opOf, dataOf,
      gradOf, addGrad, updGrad]
  · intro h
    have h1 : (1 : Nat) ∈ buildTopo subGraph 3 :=
      (mem_buildTopo (by decide) 3 1).mpr h
    have h2 : buildTopo subGraph 3 = [0, 2, 3] := by decide
    rw [h2] at h1
    simp at h1
  · simp [subGraph, backwardRun, buildTopo, dfsN, vadd, vsub, vaddNum, vneg,
      mkValue, prevOf, childList, setGrad, runBackward, opOf, dataOf, gradOf,
      addGrad, updGrad]

/-- C8: `__pow__` fails fast exactly when the exponent is not a numeric
literal: a `Value` exponent is rejected by the assert before any node is
constructed, and a numeric literal always succeeds and builds the power
node. -/
theorem claim8_pow_guard (g : List (Node ℚ)) (i : Nat) :
    (∀ j, powChecked g i (.nodeArg j) = none) ∧
    (∀ n, powChecked g i (.numLit n) = some (vpow g i n)) ∧
    (∀ a, (powChecked g i a).isSome = true ↔ ∃ n, a = PowArg.numLit n) := by
  refine ⟨fun j => rfl, fun n => rfl, ?_⟩
  intro a
  cases a with
  | numLit n => simp [powChecked]
  | nodeArg j => simp [powChecked]

/-- C5 (failing behavior): the reversed-operand forms do not delegate to
the primary rules.  `x + a` and `x * a` re-enter themselves with the same
operands (`__radd__`/`__rmul__` evaluate `other + self` / `other * self`,
which re-dispatches to themselves), so no amount of dispatch fuel
produces a result; `x - a` terminates but returns the bare number
`x + (-1 * a.data)`, not a node; `x / a` builds the reciprocal node and
then hits the `num * node` loop, producing no result. -/
theorem claim5_reflected_ops_broken :
    (∀ (g : List (Node ℚ)) (fuel : Nat) (x : ℚ) (i : Nat),
      pyAdd g fuel (.num x) (.node i) = none) ∧
    (∀ (g : List (Node ℚ)) (fuel : Nat) (x : ℚ) (i : Nat),
      pyMul g fuel (.num x) (.node i) = none) ∧
    (∀ (g : List (Node ℚ)) (fuel : Nat) (x : ℚ) (i : Nat),
      pySub g (fuel + 2) (.num x) (.node i) =
        some (g, .num (x + -1 * dataOf g i))) ∧
    (∀ (g : List (Node ℚ)) (fuel : Nat) (x : ℚ) (i : Nat),
      pyDiv g fuel (.num x) (.node i) = none) := by
  have hadd : ∀ (g : List (Node ℚ)) (fuel : Nat) (x : ℚ) (i : Nat),
      pyAdd g fuel (.num x) (.node i) = none := by
    intro g fuel
    induction fuel with
    | zero => intro x i; rfl
    | succ f ih => intro x i; simpa [pyAdd] using ih x i
  have hmul : ∀ (g : List (Node ℚ)) (fuel : Nat) (x : ℚ) (i : Nat),
      pyMul g fuel (.num x) (.node i) = none := by
    intro g fuel
    induction fuel with
    | zero => intro x i; rfl
    | succ f ih => intro x i; simpa [pyMul] using ih x i
  refine ⟨hadd, hmul, ?_, ?_⟩
  · intro g fuel x i
    simp [pySub, pyAdd, vneg]
  · intro g fuel x i
    cases fuel with
    | zero => rfl
    | succ f => simpa [pyDiv] using hmul (vpow g i (-1)).1 f x (vpow g i (-1)).2

/-- C3 (failing input, the spec's own end-to-end scenario): for
`f = (a*b + a).tanh()` with `a.data = 2`, `b.data = -3`, the code
computes `f.data = (e^(-4) - 1)/(e^(-4) + 1)` — which is `tanh(-2)`, not
`tanh(-4)` (the source formula omits doubling the exponent) — and
backward yields `a.grad = -2` and `b.grad = 2`, which differ from the
analytic partials `(1 - tanh(-4)^2)·(b+1)` and `(1 - tanh(-4)^2)·a` by
far more than the claimed `1e-6` tolerance (the add and tanh backward
closures also ignore the upstream grad). -/
theorem claim3_tanh_scenario :
    dataOf (backwardRun tanhGraph 4) 4 =
      (Real.exp (-4) - 1) / (Real.exp (-4) + 1) ∧
    gradOf (backwardRun tanhGraph 4) 0 = -2 ∧
    gradOf (backwardRun tanhGraph 4) 1 = 2 ∧
    dataOf (backwardRun tanhGraph 4) 4 ≠ Real.tanh (-4) ∧
    |gradOf (backwardRun tanhGraph 4) 0 -
      (1 - Real.tanh (-4) ^ 2) * (-3 + 1)| > 1 / 1000000 ∧
    |gradOf (backwardRun tanhGraph 4) 1 -
      (1 - Real.tanh (-4) ^ 2) * 2| > 1 / 1000000 := by
  have hd : dataOf (backwardRun tanhGraph 4) 4 =
      (Real.exp (-4) - 1) / (Real.exp (-4) + 1) := by
    norm_num [tanhGraph, backwardRun, buildTopo, dfsN, vadd, vmul, vtanh,
      mkValue, prevOf, childList, setGrad, runBackward, opOf, dataOf, gradOf,
      addGrad, updGrad]
  have hg0 : gradOf (backwardRun tanhGraph 4) 0 = -2 := by
    norm_num [tanhGraph, backwardRun, buildTopo, dfsN, vadd, vmul, vtanh,
      mkValue, prevOf, childList, setGrad, runBackward, opOf, dataOf, gradOf,
      addGrad, updGrad]
  have hg1 : gradOf (backwardRun tanhGraph 4) 1 = 2 := by
    norm_num [tanhGraph, backwardRun, buildTopo, dfsN, vadd, vmul, vtanh,
      mkValue, prevOf, childList, setGrad, runBackward, opOf, dataOf, gradOf,
      addGrad, updGrad]
  have hwpos : (0:ℝ) < Real.exp 4 := Real.exp_pos 4
  have hw9 : (9:ℝ) ≤ Real.exp 4 := by
    have h1 : (3:ℝ) ≤ Real.exp 2 := by
      have := Real.add_one_le_exp (2:ℝ)
      linarith
    have h4 : Real.exp 4 = Real.exp 2 * Real.exp 2 := by
      rw [← Real.exp_add]
      norm_num
    nlinarith [Real.exp_pos 2]
  have hw55 : Real.exp 4 < 55 := by
    have he1 := Real.exp_one_lt_d9
    have h2 : Real.exp 2 = Real.exp 1 * Real.exp 1 := by
      rw [← Real.exp_add]
      norm_num
    have h4 : Real.exp 4 = Real.exp 2 * Real.exp 2 := by
      rw [← Real.exp_add]
      norm_num
    have h2b : Real.exp 2 < 7.3890561 := by
      have hsq : (2.7182818286 - Real.exp 1) * (2.7182818286 + Real.exp 1) > 0 :=
        mul_pos (by linarith) (by positivity)
      rw [h2]
      nlinarith [hsq]
    have hsq2 : (7.3890561 - Real.exp 2) * (7.3890561 + Real.exp 2) > 0 :=
      mul_pos (by linarith) (by positivity)
    rw [h4]
    nlinarith [hsq2]
  have hv : Real.exp (-4) = (Real.exp 4)⁻¹ := Real.exp_neg 4
  have hinv : (Real.exp 4)⁻¹ * Real.exp 4 = 1 := inv_mul_cancel₀ (ne_of_gt hwpos)
  have hvpos : (0:ℝ) < (Real.exp 4)⁻¹ := by positivity
  have ht : Real.tanh (-4) =
      (Real.exp (-4) - Real.exp 4) / (Real.exp (-4) + Real.exp 4) := by
    rw [Real.tanh_eq_sinh_div_cosh, Real.sinh_eq, Real.cosh_eq]
    have hb : Real.exp (-4) + Real.exp 4 ≠ 0 := by positivity
    field_simp
  have htle : Real.tanh (-4) ≤ -(40/41) := by
    rw [ht, hv]
    rw [div_le_iff₀ (by positivity : (0:ℝ) < (Real.exp 4)⁻¹ + Real.exp 4)]
    nlinarith [hinv, hw9, mul_nonneg (sub_nonneg.mpr hw9) (le_of_lt hvpos)]
  have hdgt : -(27/28) < (Real.exp (-4) - 1) / (Real.exp (-4) + 1) := by
    rw [hv]
    rw [lt_div_iff₀ (by positivity : (0:ℝ) < (Real.exp 4)⁻¹ + 1)]
    nlinarith [hinv, mul_pos hvpos (sub_pos.mpr hw55)]
  have ht2 : (1600 / 1681 : ℝ) ≤ Real.tanh (-4) ^ 2 := by
    nlinarith [htle, sq_nonneg (Real.tanh (-4) + 40/41)]
  refine ⟨hd, hg0, hg1, ?_, ?_, ?_⟩
  · rw [hd]
    intro hcon
    rw [hcon] at hdgt
    have h5 : -(27/28 : ℝ) < -(40/41) := lt_of_lt_of_le hdgt htle
    norm_num at h5
  · rw [hg0]
    rw [show (-2 : ℝ) - (1 - Real.tanh (-4) ^ 2) * (-3 + 1) =
      -(2 * Real.tanh (-4) ^ 2) from by ring]
    rw [abs_neg, abs_of_nonneg (by positivity)]
    nlinarith [ht2]
  · rw [hg1]
    rw [show (2 : ℝ) - (1 - Real.tanh (-4) ^ 2) * 2 =
      2 * Real.tanh (-4) ^ 2 from by ring]
    rw [abs_of_nonneg (by positivity)]
    nlinarith [ht2]

end Micrograd
